import Mathlib

/-
  Shallow embedding of the mcp-i18n extraction engine (src/index.ts):
  the value normalizer (processNodeValue / processPropertyInto), the
  call-site extractor (extractTranslationCalls), the export-locator path
  of extractDataContent, and the catalog merger (mergeDeep).
-/

namespace I18n

/-- Key of a Babel ObjectProperty, as inspected by processPropertyInto:
a plain identifier, a string literal, or anything else (computed key,
numeric key, ...), for which the code derives no key name. -/
inductive PropKey where
  | identKey  (name : String)
  | stringKey (value : String)
  | otherKey
deriving Repr, DecidableEq

mutual
/-- The subset of the Babel expression grammar that the engine inspects.
`templateLit` keeps only the raw text of the quasis (the code reads
`node.quasis.map(q => q.value.raw)`). `numericLit` is modelled over Int
(the claims only involve integer literals). `arrayExpr` elements are
`Option Node` because sparse array holes arrive as `null` elements.
`other` stands for every node kind the code does not handle
(functions, JSX, regexes, ...); such nodes carry no children that the
engine ever visits. -/
inductive Node where
  | stringLit   (value : String)
  | templateLit (quasis : List String)
  | numericLit  (value : Int)
  | booleanLit  (value : Bool)
  | nullLit
  | objectExpr  (properties : List ObjProp)
  | arrayExpr   (elements : List (Option Node))
  | ident       (name : String)
  | unaryExpr   (op : String) (argument : Node)
  | callExpr    (callee : Node) (args : List Node)
  | logicalExpr (op : String) (left : Node) (right : Node)
  | other
deriving Repr

/-- A member of an object literal: an ObjectProperty (key + value), or
any other member kind (SpreadElement, ObjectMethod, ...), which the
forEach in processNodeValue skips. -/
inductive ObjProp where
  | objectProperty (key : PropKey) (value : Node)
  | otherProp
deriving Repr
end

/-- A JavaScript runtime value as it flows through the engine: the
JSON-compatible values produced by the normalizer and read from the
catalog, plus `promise`, because the un-awaited recursive call in
mergeDeep stores a Promise (here: the value it resolves to) into the
merged object. -/
inductive JsValue where
  | str  (s : String)
  | num  (n : Int)
  | bool (b : Bool)
  | null
  | arr  (elems : List JsValue)
  | obj  (fields : List (String × JsValue))
  | promise (resolved : JsValue)
deriving Repr

/-- Property read `o[k]` on a plain object modelled as an insertion
ordered association list (first, i.e. only, occurrence of the key). -/
def lookupProp : List (String × JsValue) → String → Option JsValue
  | [], _ => none
  | (k', v) :: rest, k => if k' = k then some v else lookupProp rest k

/-- Property write `o[k] = v` (also `Object.assign(o, {[k]: v})`):
updates the value in place when the key exists, else appends, matching
JavaScript property insertion order. -/
def setProp : List (String × JsValue) → String → JsValue → List (String × JsValue)
  | [], k, v => [(k, v)]
  | (k', v') :: rest, k, v =>
      if k' = k then (k', v) :: rest else (k', v') :: setProp rest k v

/-- Own-property test `k in o` for plain data objects. (The JavaScript
`in` operator would additionally see Object.prototype members such as
"toString"; the objects merged here come from JSON.parse or from the
extractor, and no claim involves prototype key names.) -/
def hasProp : List (String × JsValue) → String → Bool
  | [], _ => false
  | (k', _) :: rest, k => k' = k || hasProp rest k

/-- The key-name computation at the top of processPropertyInto:
identifier keys give their name, string-literal keys their value,
anything else null (the property is then skipped). -/
def keyName : PropKey → Option String
  | PropKey.identKey n  => some n
  | PropKey.stringKey s => some s
  | PropKey.otherKey    => none

mutual
/-- processNodeValue from src/index.ts. String literal → its value;
template literal → quasis joined with "\x7b\x7b\x7d\x7d"; numeric and
boolean literals → their value; null literal → null; object literal →
mapping of its ObjectProperties (other members skipped); array literal
→ elementwise normalization (a hole normalizes to null); the identifier
`undefined`, every other identifier, `void 0`, every other unary
expression, and every unhandled node kind all fall to the final
`return null`. -/
def processNodeValue : Node → JsValue
  | Node.stringLit v => JsValue.str v
  | Node.templateLit quasis => JsValue.str (String.intercalate "\x7b\x7b\x7d\x7d" quasis)
  | Node.numericLit n => JsValue.num n
  | Node.booleanLit b => JsValue.bool b
  | Node.nullLit => JsValue.null
  | Node.objectExpr props => JsValue.obj (processProps props [])
  | Node.arrayExpr elems => JsValue.arr (processElems elems)
  | Node.ident _ => JsValue.null
  | Node.unaryExpr _ _ => JsValue.null
  | Node.callExpr _ _ => JsValue.null
  | Node.logicalExpr _ _ _ => JsValue.null
  | Node.other => JsValue.null

/-- The elements.forEach of the ArrayExpression case: each element is
processed recursively; a sparse hole (null element) is passed to
processNodeValue, which returns null for it. -/
def processElems : List (Option Node) → List JsValue
  | [] => []
  | none :: rest => JsValue.null :: processElems rest
  | some n :: rest => processNodeValue n :: processElems rest

/-- The properties.forEach of the ObjectExpression case: ObjectProperty
members are folded into the accumulating object via processPropertyInto;
every other member kind is ignored. -/
def processProps : List ObjProp → List (String × JsValue) → List (String × JsValue)
  | [], acc => acc
  | ObjProp.objectProperty key value :: rest, acc =>
      processProps rest (processPropertyInto key value acc)
  | ObjProp.otherProp :: rest, acc => processProps rest acc

/-- processPropertyInto from src/index.ts: derive the key name (skip the
property if there is none), normalize the value, and write it into the
target object only when the processed value is not null. -/
def processPropertyInto (key : PropKey) (value : Node) (targetObject : List (String × JsValue)) :
    List (String × JsValue) :=
  match keyName key with
  | none => targetObject
  | some k =>
      match processNodeValue value with
      | JsValue.null => targetObject
      | pv => setProp targetObject k pv
end

/-- A top-level statement of the parsed module, covering the statement
kinds the engine reacts to: an ExportDefaultDeclaration with its
declaration expression, a VariableDeclarator (name plus optional
initializer), an expression statement, and anything else. -/
inductive Stmt where
  | exportDefaultExpr (declaration : Node)
  | varDecl (name : String) (init : Option Node)
  | exprStmt (e : Node)
  | otherStmt
deriving Repr

/-- A CallExpression as the Babel traversal reaches it: its callee, its
arguments, and — when its immediate parent is a LogicalExpression whose
operator is "||" and of which this call is the left operand — that
parent's right operand (the shape extractTranslationCalls checks for a
default value). -/
structure CallSite where
  callee : Node
  args : List Node
  orRight : Option Node
deriving Repr

mutual
/-- Depth-first preorder collection of every CallExpression in an
expression tree, recording for each the parent context described in
CallSite.orRight. Only the left operand of a "||" LogicalExpression
gets a non-none context; every other parent/child edge passes none. -/
def collectCalls (orRight : Option Node) : Node → List CallSite
  | Node.callExpr callee args =>
      CallSite.mk callee args orRight ::
        (collectCalls none callee ++ collectCallsList args)
  | Node.logicalExpr op left right =>
      collectCalls (if op = "||" then some right else none) left ++
        collectCalls none right
  | Node.objectExpr props => collectCallsProps props
  | Node.arrayExpr elems => collectCallsElems elems
  | Node.unaryExpr _ argument => collectCalls none argument
  | _ => []

/-- Calls inside a list of argument expressions, in order. -/
def collectCallsList : List Node → List CallSite
  | [] => []
  | n :: rest => collectCalls none n ++ collectCallsList rest

/-- Calls inside the elements of an array literal (holes have none). -/
def collectCallsElems : List (Option Node) → List CallSite
  | [] => []
  | none :: rest => collectCallsElems rest
  | some n :: rest => collectCalls none n ++ collectCallsElems rest

/-- Calls inside the members of an object literal. -/
def collectCallsProps : List ObjProp → List CallSite
  | [] => []
  | ObjProp.objectProperty _ value :: rest =>
      collectCalls none value ++ collectCallsProps rest
  | ObjProp.otherProp :: rest => collectCallsProps rest
end

/-- Calls inside one top-level statement. -/
def collectCallsStmt : Stmt → List CallSite
  | Stmt.exportDefaultExpr d => collectCalls none d
  | Stmt.varDecl _ (some init) => collectCalls none init
  | Stmt.varDecl _ none => []
  | Stmt.exprStmt e => collectCalls none e
  | Stmt.otherStmt => []

/-- Every CallExpression of the module, in traversal order. -/
def collectCallsProg (prog : List Stmt) : List CallSite :=
  prog.flatMap collectCallsStmt

/-- The namespace pass of extractTranslationCalls: over all call
expressions in traversal order, whenever the callee is the identifier
`useTranslations` and the first argument is a string literal, record
that string (the last such call wins). -/
def useTranslationsNs (calls : List CallSite) : Option String :=
  calls.foldl
    (fun translationNamespace c =>
      match c.callee, c.args with
      | Node.ident "useTranslations", Node.stringLit s :: _ => some s
      | _, _ => translationNamespace)
    none

/-- One step of the call pass of extractTranslationCalls: a call whose
callee is the identifier `t` with a string-literal first argument adds
`fullKey -> defaultValue` (or `""` without a default) to the flat map;
the default is recovered only from a parent `t(key) || "literal"`
shape. -/
def recordCall (translationNamespace : Option String)
    (translations : List (String × JsValue)) (c : CallSite) :
    List (String × JsValue) :=
  match c.callee, c.args with
  | Node.ident "t", Node.stringLit key :: _ =>
      let defaultValue : Option String :=
        match c.orRight with
        | some (Node.stringLit s) => some s
        | _ => none
      let fullKey : String :=
        match translationNamespace with
        | some ns => ns ++ "." ++ key
        | none => key
      match defaultValue with
      | some d => setProp translations fullKey (JsValue.str d)
      | none => setProp translations fullKey (JsValue.str "")
  | _, _ => translations

/-- extractTranslationCalls from src/index.ts: the namespace pass
followed by the call pass over the same traversal. -/
def extractTranslationCalls (prog : List Stmt) : List (String × JsValue) :=
  let calls := collectCallsProg prog
  calls.foldl (recordCall (useTranslationsNs calls)) []

/-- path.scope.getBinding for a top-level name: the initializer of the
first VariableDeclarator with that name (outer none: no declarator
binds the name; inner none: declarator without initializer). -/
def findVarInit : List Stmt → String → Option (Option Node)
  | [], _ => none
  | Stmt.varDecl n init :: rest, name =>
      if n = name then some init else findVarInit rest name
  | _ :: rest, name => findVarInit rest name

/-- The ExportDefaultDeclaration traversal of extractDataContent: at the
first default export whose declaration is an object literal (directly,
or via an identifier whose local declarator has an object-literal
initializer), normalize it, accept the result if it is a non-array
object, and stop; other default exports are passed over and traversal
continues; with no match the extracted data is the empty object. The
first argument is the whole module (for binding lookup), the second the
statements still to traverse. -/
def exportPath (prog : List Stmt) : List Stmt → List (String × JsValue)
  | [] => []
  | Stmt.exportDefaultExpr d :: rest =>
      match d with
      | Node.objectExpr props =>
          (match processNodeValue (Node.objectExpr props) with
           | JsValue.obj fields => fields
           | _ => [])
      | Node.ident name =>
          (match findVarInit prog name with
           | some (some (Node.objectExpr props)) =>
               (match processNodeValue (Node.objectExpr props) with
                | JsValue.obj fields => fields
                | _ => [])
           | _ => exportPath prog rest)
      | _ => exportPath prog rest
  | _ :: rest => exportPath prog rest

/-- extractDataContent from src/index.ts (after parsing): run the
call-site extractor first; if it produced any entries return exactly
its result, otherwise fall back to the default-export traversal. -/
def extractDataContent (prog : List Stmt) : List (String × JsValue) :=
  let translationCalls := extractTranslationCalls prog
  if translationCalls.length > 0 then translationCalls
  else exportPath prog prog

/-- The node a default-export declaration stands for once the
identifier indirection of the export locator is taken into account:
an identifier with a locally bound initializer resolves to that
initializer, everything else to itself. -/
def resolveDefault (prog : List Stmt) (d : Node) : Node :=
  match d with
  | Node.ident name =>
      match findVarInit prog name with
      | some (some init) => init
      | _ => d
  | _ => d

/-- The shape test used to state claims about the export locator:
is the normalized value a mapping (a JavaScript object)? -/
def isMappingValue : JsValue → Bool
  | JsValue.obj _ => true
  | _ => false

/-- The isObject guard of mergeDeep, restricted to the values that can
actually reach it (JSON.parse output and extractor output contain no
promises): exactly the non-array objects pass. -/
def notAMapping : JsValue → Bool
  | JsValue.obj _ => false
  | JsValue.promise _ => false
  | _ => true

/-- sizeOf of a value found by lookupProp is below the list's sizeOf
(termination measure for mergeDeep's recursion through target[key]). -/
theorem lookupProp_sizeOf {fs : List (String × JsValue)} {k : String} {v : JsValue}
    (h : lookupProp fs k = some v) : sizeOf v < sizeOf fs := by
  induction fs with
  | nil => simp [lookupProp] at h
  | cons hd tl ih =>
      obtain ⟨k', v'⟩ := hd
      rw [lookupProp] at h
      by_cases hk : k' = k
      · simp [hk] at h
        subst h
        simp only [List.cons.sizeOf_spec, Prod.mk.sizeOf_spec]
        omega
      · simp [hk] at h
        have := ih h
        simp only [List.cons.sizeOf_spec, Prod.mk.sizeOf_spec]
        omega

mutual
/-- mergeDeep from src/index.ts, as the value the returned Promise
resolves to. When both arguments pass the isObject guard, the output
starts as a shallow copy of target and each key of source is written
over it: a source sub-object merges recursively when the key exists in
target — but the async recursive call is not awaited, so the stored
value is the Promise of the merged mapping (JsValue.promise) — and in
every other case (new object key, array, scalar) the source value is
assigned. When either argument fails the guard, source replaces the
whole output. -/
def mergeDeep : JsValue → JsValue → JsValue
  | JsValue.obj tf, JsValue.obj sf => JsValue.obj (mergeFields tf tf sf)
  | _, source => source
termination_by t s => sizeOf t + sizeOf s

/-- The value mergeDeep's loop assigns at one source key. A source
sub-object whose key passes `key in target` recurses — un-awaited, so
the Promise of the merged mapping is what gets stored; a source
sub-object at a key new to target, an array, and any scalar are
assigned as they are (each branch of the JavaScript loop ends in the
same `output[key] = <value>` write). -/
def mergeValue (tf : List (String × JsValue)) (key : String) (sv : JsValue) : JsValue :=
  match sv with
  | JsValue.obj svf =>
      match hl : lookupProp tf key with
      | some tv => JsValue.promise (mergeDeep tv (JsValue.obj svf))
      | none => JsValue.obj svf
  | _ => sv
termination_by sizeOf tf + sizeOf sv
decreasing_by
  all_goals simp_wf
  all_goals (have hsz := lookupProp_sizeOf hl; omega)

/-- The Object.keys(source).forEach loop of mergeDeep: tf is the
original target (consulted by `key in target` and `target[key]`), out
the output object being written. -/
def mergeFields (tf : List (String × JsValue)) (out : List (String × JsValue)) :
    List (String × JsValue) → List (String × JsValue)
  | [] => out
  | (key, sv) :: rest => mergeFields tf (setProp out key (mergeValue tf key sv)) rest
termination_by l => sizeOf tf + sizeOf l
end

mutual
/-- A value is JSON-representable when no promise occurs anywhere in
it: exactly the values JSON.stringify writes without loss. -/
def JsValue.isJson : JsValue → Bool
  | JsValue.str _ => true
  | JsValue.num _ => true
  | JsValue.bool _ => true
  | JsValue.null => true
  | JsValue.arr elems => isJsonList elems
  | JsValue.obj fields => isJsonFields fields
  | JsValue.promise _ => false

/-- All elements of a list are JSON-representable. -/
def isJsonList : List JsValue → Bool
  | [] => true
  | v :: rest => v.isJson && isJsonList rest

/-- All field values of an object are JSON-representable. -/
def isJsonFields : List (String × JsValue) → Bool
  | [] => true
  | (_, v) :: rest => v.isJson && isJsonFields rest
end

/-- Writing a key makes it present. -/
theorem hasProp_setProp_self (fs : List (String × JsValue)) (k : String) (v : JsValue) :
    hasProp (setProp fs k v) k = true := by
  induction fs with
  | nil => simp [setProp, hasProp]
  | cons hd tl ih =>
      obtain ⟨k', v'⟩ := hd
      by_cases hk : k' = k <;> simp [setProp, hasProp, hk, ih]

/-- Writing any key never removes an existing key. -/
theorem hasProp_setProp_mono {fs : List (String × JsValue)} {k : String}
    (k' : String) (v : JsValue) (h : hasProp fs k = true) :
    hasProp (setProp fs k' v) k = true := by
  induction fs with
  | nil => simp [hasProp] at h
  | cons hd tl ih =>
      obtain ⟨k₀, v₀⟩ := hd
      by_cases hk : k₀ = k'
      · simp [setProp, hasProp, hk] at h ⊢
        rcases h with h | h
        · left; exact h
        · right; exact h
      · simp [setProp, hasProp, hk] at h ⊢
        rcases h with h | h
        · left; exact h
        · right; exact ih h

/-- Writing a different key leaves a key's looked-up value unchanged. -/
theorem lookupProp_setProp_ne {k' k : String} (fs : List (String × JsValue)) (v : JsValue)
    (h : k' ≠ k) : lookupProp (setProp fs k' v) k = lookupProp fs k := by
  induction fs with
  | nil => simp [setProp, lookupProp, h]
  | cons hd tl ih =>
      obtain ⟨k₀, v₀⟩ := hd
      by_cases hk : k₀ = k'
      · subst hk
        simp [setProp, lookupProp, h]
      · simp [setProp, lookupProp, hk, ih]

/-- Writing a JSON value over a JSON object keeps it a JSON object. -/
theorem isJsonFields_setProp {fs : List (String × JsValue)} {v : JsValue} (k : String)
    (hfs : isJsonFields fs = true) (hv : v.isJson = true) :
    isJsonFields (setProp fs k v) = true := by
  induction fs with
  | nil => simp [setProp, isJsonFields, hv]
  | cons hd tl ih =>
      obtain ⟨k₀, v₀⟩ := hd
      simp [isJsonFields] at hfs
      by_cases hk : k₀ = k <;>
        simp [setProp, isJsonFields, hk, hfs, hv, ih hfs.2]

mutual
/-- Every normalized value is JSON-representable (no promise inside). -/
theorem processNodeValue_isJson : (n : Node) → (processNodeValue n).isJson = true
  | Node.stringLit _ => by simp [processNodeValue, JsValue.isJson]
  | Node.templateLit _ => by simp [processNodeValue, JsValue.isJson]
  | Node.numericLit _ => by simp [processNodeValue, JsValue.isJson]
  | Node.booleanLit _ => by simp [processNodeValue, JsValue.isJson]
  | Node.nullLit => by simp [processNodeValue, JsValue.isJson]
  | Node.objectExpr props => by
      have h := processProps_isJson props [] rfl
      simpa [processNodeValue, JsValue.isJson] using h
  | Node.arrayExpr elems => by
      have h := processElems_isJson elems
      simpa [processNodeValue, JsValue.isJson] using h
  | Node.ident _ => by simp [processNodeValue, JsValue.isJson]
  | Node.unaryExpr _ _ => by simp [processNodeValue, JsValue.isJson]
  | Node.callExpr _ _ => by simp [processNodeValue, JsValue.isJson]
  | Node.logicalExpr _ _ _ => by simp [processNodeValue, JsValue.isJson]
  | Node.other => by simp [processNodeValue, JsValue.isJson]
termination_by n => sizeOf n

/-- Every normalized element list is JSON-representable. -/
theorem processElems_isJson : (l : List (Option Node)) → isJsonList (processElems l) = true
  | [] => by simp [processElems, isJsonList]
  | none :: rest => by
      have h := processElems_isJson rest
      simp [processElems, isJsonList, JsValue.isJson, h]
  | some n :: rest => by
      have h1 := processNodeValue_isJson n
      have h2 := processElems_isJson rest
      simp [processElems, isJsonList, h1, h2]
termination_by l => sizeOf l

/-- Folding the properties of an object literal over a JSON object
yields a JSON object. -/
theorem processProps_isJson :
    (l : List ObjProp) → (acc : List (String × JsValue)) →
      isJsonFields acc = true → isJsonFields (processProps l acc) = true
  | [], _, hacc => by simpa [processProps] using hacc
  | ObjProp.objectProperty key value :: rest, acc, hacc => by
      have h1 := processPropertyInto_isJson key value acc hacc
      have h2 := processProps_isJson rest (processPropertyInto key value acc) h1
      simpa [processProps] using h2
  | ObjProp.otherProp :: rest, acc, hacc => by
      have h := processProps_isJson rest acc hacc
      simpa [processProps] using h
termination_by l _ _ => sizeOf l

/-- Writing one normalized property keeps the object JSON. -/
theorem processPropertyInto_isJson :
    (key : PropKey) → (value : Node) → (acc : List (String × JsValue)) →
      isJsonFields acc = true → isJsonFields (processPropertyInto key value acc) = true
  | key, value, acc, hacc => by
      have hv := processNodeValue_isJson value
      rw [processPropertyInto]
      rcases hkey : keyName key with _ | k
      · exact hacc
      · rcases hpv : processNodeValue value with s | m | b | _ | el | fl | p <;>
          simp only [hpv] at hv <;>
          first
          | exact hacc
          | exact isJsonFields_setProp k hacc hv
termination_by key value _ _ => sizeOf key + sizeOf value + 1
end

/-- processPropertyInto never removes a key already present. -/
theorem hasProp_processPropertyInto_mono (key : PropKey) (value : Node)
    {acc : List (String × JsValue)} {k : String} (h : hasProp acc k = true) :
    hasProp (processPropertyInto key value acc) k = true := by
  rw [processPropertyInto]
  rcases keyName key with _ | k'
  · exact h
  · rcases processNodeValue value with s | m | b | _ | el | fl | p <;>
      first
      | exact h
      | exact hasProp_setProp_mono k' _ h

/-- processProps never removes a key already present. -/
theorem hasProp_processProps_mono (l : List ObjProp) :
    ∀ (acc : List (String × JsValue)) (k : String), hasProp acc k = true →
      hasProp (processProps l acc) k = true := by
  induction l with
  | nil => intro acc k h; simpa [processProps] using h
  | cons p rest ih =>
      intro acc k h
      cases p with
      | objectProperty key value =>
          rw [processProps]
          exact ih _ k (hasProp_processPropertyInto_mono key value h)
      | otherProp =>
          rw [processProps]
          exact ih _ k h

/-- A property with a usable key name and a non-null normalized value
ends up present after the properties fold, wherever it sits. -/
theorem hasProp_processProps_of_mem {pk : PropKey} {v : Node} {k : String}
    (props : List ObjProp) (hkey : keyName pk = some k)
    (hnn : processNodeValue v ≠ JsValue.null) :
    ∀ acc : List (String × JsValue), ObjProp.objectProperty pk v ∈ props →
      hasProp (processProps props acc) k = true := by
  induction props with
  | nil => intro acc hmem; cases hmem
  | cons p rest ih =>
      intro acc hmem
      rcases List.mem_cons.mp hmem with heq | hmem'
      · subst heq
        rw [processProps]
        apply hasProp_processProps_mono
        rw [processPropertyInto, hkey]
        rcases hpv : processNodeValue v with s | m | b | _ | el | fl | p <;>
          first
          | exact absurd hpv hnn
          | exact hasProp_setProp_self acc k _
      · cases p with
        | objectProperty key value =>
            rw [processProps]
            exact ih _ hmem'
        | otherProp =>
            rw [processProps]
            exact ih _ hmem'

/-- Keys the incoming mapping does not mention are never written by the
merge loop. -/
theorem mergeFields_lookup_of_notProp (tf : List (String × JsValue)) {k : String} :
    ∀ (sf out : List (String × JsValue)), hasProp sf k = false →
      lookupProp (mergeFields tf out sf) k = lookupProp out k := by
  intro sf
  induction sf with
  | nil => intro out _; simp [mergeFields]
  | cons hd rest ih =>
      obtain ⟨key, sv⟩ := hd
      intro out h
      simp only [hasProp, Bool.or_eq_false_iff, decide_eq_false_iff_not] at h
      rw [mergeFields, ih _ h.2]
      exact lookupProp_setProp_ne out _ h.1

/-- The default-export traversal finds nothing when no default export
of the traversed statements resolves to an object literal. -/
theorem exportPath_empty_aux (prog : List Stmt) :
    ∀ l : List Stmt,
      (∀ d, Stmt.exportDefaultExpr d ∈ l →
        isMappingValue (processNodeValue (resolveDefault prog d)) = false) →
      exportPath prog l = [] := by
  intro l
  induction l with
  | nil => intro _; simp [exportPath]
  | cons s rest ih =>
      intro h
      have hrest : ∀ d, Stmt.exportDefaultExpr d ∈ rest →
          isMappingValue (processNodeValue (resolveDefault prog d)) = false :=
        fun d hd => h d (List.mem_cons_of_mem _ hd)
      cases s with
      | exportDefaultExpr d =>
          have hd := h d (List.mem_cons_self _ _)
          cases d with
          | objectExpr props =>
              exfalso
              rw [show resolveDefault prog (Node.objectExpr props) =
                    Node.objectExpr props from rfl] at hd
              simp [processNodeValue, isMappingValue] at hd
          | ident name =>
              rw [exportPath]
              rcases hfv : findVarInit prog name with _ | oinit
              · simpa [hfv] using ih hrest
              · rcases oinit with _ | init
                · simpa [hfv] using ih hrest
                · cases init with
                  | objectExpr props =>
                      exfalso
                      have hres : resolveDefault prog (Node.ident name) =
                          Node.objectExpr props := by
                        simp [resolveDefault, hfv]
                      rw [hres] at hd
                      simp [processNodeValue, isMappingValue] at hd
                  | stringLit v => simpa [hfv] using ih hrest
                  | templateLit q => simpa [hfv] using ih hrest
                  | numericLit v => simpa [hfv] using ih hrest
                  | booleanLit v => simpa [hfv] using ih hrest
                  | nullLit => simpa [hfv] using ih hrest
                  | arrayExpr el => simpa [hfv] using ih hrest
                  | ident n2 => simpa [hfv] using ih hrest
                  | unaryExpr op a => simpa [hfv] using ih hrest
                  | callExpr c a => simpa [hfv] using ih hrest
                  | logicalExpr op a b => simpa [hfv] using ih hrest
                  | other => simpa [hfv] using ih hrest
          | stringLit v => simpa [exportPath] using ih hrest
          | templateLit q => simpa [exportPath] using ih hrest
          | numericLit v => simpa [exportPath] using ih hrest
          | booleanLit v => simpa [exportPath] using ih hrest
          | nullLit => simpa [exportPath] using ih hrest
          | arrayExpr el => simpa [exportPath] using ih hrest
          | unaryExpr op a => simpa [exportPath] using ih hrest
          | callExpr c a => simpa [exportPath] using ih hrest
          | logicalExpr op a b => simpa [exportPath] using ih hrest
          | other => simpa [exportPath] using ih hrest
      | varDecl n i => simpa [exportPath] using ih hrest
      | exprStmt e => simpa [exportPath] using ih hrest
      | otherStmt => simpa [exportPath] using ih hrest

/-- C1. The claim says merging existing `{a: {x: 1}, b: [1,2]}` with
incoming `{a: {y: 2}, b: [3,4]}` returns `{a: {x: 1, y: 2}, b: [3,4]}`.
Evaluating mergeDeep at exactly this input shows what the code does
instead: because the recursive `this.mergeDeep(target[key], source[key])`
call is not awaited, the value stored at key `a` is the Promise of the
merged sub-mapping, not the sub-mapping itself (and so not a mapping at
all — JSON.stringify writes it as an empty object). The array at `b` is
fully overwritten as the claim says. -/
theorem mergeDeep_merge_precedence_scenario :
    mergeDeep
        (JsValue.obj [("a", JsValue.obj [("x", JsValue.num 1)]),
                      ("b", JsValue.arr [JsValue.num 1, JsValue.num 2])])
        (JsValue.obj [("a", JsValue.obj [("y", JsValue.num 2)]),
                      ("b", JsValue.arr [JsValue.num 3, JsValue.num 4])]) =
      JsValue.obj
        [("a", JsValue.promise (JsValue.obj [("x", JsValue.num 1), ("y", JsValue.num 2)])),
         ("b", JsValue.arr [JsValue.num 3, JsValue.num 4])] ∧
    isMappingValue
        (JsValue.promise (JsValue.obj [("x", JsValue.num 1), ("y", JsValue.num 2)])) = false ∧
    (JsValue.promise (JsValue.obj [("x", JsValue.num 1), ("y", JsValue.num 2)])).isJson = false := by
  refine ⟨?_, rfl, rfl⟩
  simp [mergeDeep, mergeFields, mergeValue, setProp, lookupProp]

/-- C2 counterexample. The claim says an object-literal property whose
value is the null literal appears in the normalizer's result mapping
with value null and that no keys are lost; evaluating the normalizer on
`{a: null}` gives the empty mapping — the key `a` is dropped, because
processPropertyInto writes a property only when its processed value is
not null. -/
theorem processNodeValue_null_property_dropped :
    processNodeValue
        (Node.objectExpr [ObjProp.objectProperty (PropKey.identKey "a") Node.nullLit]) =
      JsValue.obj [] ∧
    hasProp (processProps [ObjProp.objectProperty (PropKey.identKey "a") Node.nullLit] [])
        "a" = false := by
  constructor <;>
    simp [processNodeValue, processProps, processPropertyInto, keyName, hasProp]

/-- C2 as amended: the normalizer returns a mapping for every object
literal, containing an entry for each own property whose key is a plain
identifier or string literal and whose value normalizes to a non-null
value; properties whose values normalize to null (the null literal,
`undefined`, `void 0`, unsupported kinds) are omitted. -/
theorem processNodeValue_object_keeps_nonnull_keys
    (props : List ObjProp) (pk : PropKey) (v : Node) (k : String)
    (hmem : ObjProp.objectProperty pk v ∈ props)
    (hkey : keyName pk = some k)
    (hnn : processNodeValue v ≠ JsValue.null) :
    processNodeValue (Node.objectExpr props) = JsValue.obj (processProps props []) ∧
    hasProp (processProps props []) k = true := by
  exact ⟨by rw [processNodeValue], hasProp_processProps_of_mem props hkey hnn [] hmem⟩

/-- Witness for the amended C2 theorem at the object literal
`{greeting: "Hello"}`. -/
theorem processNodeValue_object_keeps_nonnull_keys_witness :
    processNodeValue
        (Node.objectExpr [ObjProp.objectProperty (PropKey.identKey "greeting")
          (Node.stringLit "Hello")]) =
      JsValue.obj (processProps
        [ObjProp.objectProperty (PropKey.identKey "greeting") (Node.stringLit "Hello")] []) ∧
    hasProp (processProps
        [ObjProp.objectProperty (PropKey.identKey "greeting") (Node.stringLit "Hello")] [])
      "greeting" = true :=
  processNodeValue_object_keeps_nonnull_keys
    [ObjProp.objectProperty (PropKey.identKey "greeting") (Node.stringLit "Hello")]
    (PropKey.identKey "greeting") (Node.stringLit "Hello") "greeting"
    (List.mem_singleton.mpr rfl) rfl (by simp [processNodeValue])

/-- C3. The claim says merging a catalog with an incoming mapping equal
to a subset already present (including a nested sub-mapping) leaves
every key of the existing catalog unchanged. Evaluating mergeDeep on
existing `{a: {x: 1}, b: 2}` and incoming `{a: {x: 1}}` shows the
overlapping key `a` instead ends up holding the Promise of the merged
sub-mapping (the un-awaited recursive call), which is not equal to the
existing sub-mapping and is not even a mapping. -/
theorem mergeDeep_subset_scenario :
    mergeDeep
        (JsValue.obj [("a", JsValue.obj [("x", JsValue.num 1)]), ("b", JsValue.num 2)])
        (JsValue.obj [("a", JsValue.obj [("x", JsValue.num 1)])]) =
      JsValue.obj
        [("a", JsValue.promise (JsValue.obj [("x", JsValue.num 1)])), ("b", JsValue.num 2)] ∧
    lookupProp [("a", JsValue.obj [("x", JsValue.num 1)]), ("b", JsValue.num 2)] "a" =
      some (JsValue.obj [("x", JsValue.num 1)]) ∧
    isMappingValue (JsValue.promise (JsValue.obj [("x", JsValue.num 1)])) = false := by
  refine ⟨?_, rfl, rfl⟩
  simp [mergeDeep, mergeFields, mergeValue, setProp, lookupProp]

/-- C4. Whenever the call-site scan yields at least one entry, the
extraction engine returns exactly that scan's mapping; the default
export traversal is not consulted — the two strategies are selected by
the non-empty-result check and never combined. -/
theorem extractDataContent_call_precedence (prog : List Stmt)
    (h : extractTranslationCalls prog ≠ []) :
    extractDataContent prog = extractTranslationCalls prog := by
  rcases hc : extractTranslationCalls prog with _ | ⟨a, l⟩
  · exact absurd hc h
  · simp [extractDataContent, hc]

/-- Witness for C4: a module with both a translation call and a
qualifying default object export yields only the call-site result. -/
theorem extractDataContent_call_precedence_witness :
    extractTranslationCalls
        [Stmt.exprStmt (Node.callExpr (Node.ident "t") [Node.stringLit "k"]),
         Stmt.exportDefaultExpr (Node.objectExpr
           [ObjProp.objectProperty (PropKey.identKey "x") (Node.stringLit "y")])] ≠ [] ∧
    extractDataContent
        [Stmt.exprStmt (Node.callExpr (Node.ident "t") [Node.stringLit "k"]),
         Stmt.exportDefaultExpr (Node.objectExpr
           [ObjProp.objectProperty (PropKey.identKey "x") (Node.stringLit "y")])] =
      extractTranslationCalls
        [Stmt.exprStmt (Node.callExpr (Node.ident "t") [Node.stringLit "k"]),
         Stmt.exportDefaultExpr (Node.objectExpr
           [ObjProp.objectProperty (PropKey.identKey "x") (Node.stringLit "y")])] := by
  have h : extractTranslationCalls
      [Stmt.exprStmt (Node.callExpr (Node.ident "t") [Node.stringLit "k"]),
       Stmt.exportDefaultExpr (Node.objectExpr
         [ObjProp.objectProperty (PropKey.identKey "x") (Node.stringLit "y")])] ≠ [] := by
    simp [extractTranslationCalls, collectCallsProg, collectCallsStmt, collectCalls,
      collectCallsList, collectCallsProps, useTranslationsNs, recordCall, setProp, List.foldl]
  exact ⟨h, extractDataContent_call_precedence _ h⟩

/-- The module of the C5 scenario: `useTranslations('pages.mypage')`
bound to `t`, then `t('title') || 'Default Title'`,
`t('description') || 'desc'`, and `t('button_label')` with no
default. -/
def sampleTranslationModule : List Stmt :=
  [ Stmt.varDecl "t"
      (some (Node.callExpr (Node.ident "useTranslations") [Node.stringLit "pages.mypage"])),
    Stmt.exprStmt (Node.logicalExpr "||"
      (Node.callExpr (Node.ident "t") [Node.stringLit "title"])
      (Node.stringLit "Default Title")),
    Stmt.exprStmt (Node.logicalExpr "||"
      (Node.callExpr (Node.ident "t") [Node.stringLit "description"])
      (Node.stringLit "desc")),
    Stmt.exprStmt (Node.callExpr (Node.ident "t") [Node.stringLit "button_label"]) ]

/-- C5. On the namespace/default-value scenario the call-site extractor
yields exactly the flat mapping with namespace-prefixed dotted keys,
the string-literal right operands of the enclosing `||` as defaults,
and the empty string for the call without a default. -/
theorem extractTranslationCalls_namespace_scenario :
    extractTranslationCalls sampleTranslationModule =
      [("pages.mypage.title", JsValue.str "Default Title"),
       ("pages.mypage.description", JsValue.str "desc"),
       ("pages.mypage.button_label", JsValue.str "")] := by
  simp [sampleTranslationModule, extractTranslationCalls, collectCallsProg, collectCallsStmt,
    collectCalls, collectCallsList, useTranslationsNs, recordCall, setProp, List.foldl]

/-- C6. Normalizing the array literal
`[ "a", {b:1}, t-template, null, ["c","d"], undefined, void 0 ]`
(the third element being the template literal with quasis "t " and ""
around one interpolation) yields
`["a", {b:1}, "t \x7b\x7b\x7d\x7d", null, ["c","d"], null, null]`:
positional order and length are preserved and all undefined-like forms
and the null literal map to null; a sparse hole also maps to null. -/
theorem processNodeValue_array_scenario :
    processNodeValue (Node.arrayExpr
        [ some (Node.stringLit "a"),
          some (Node.objectExpr
            [ObjProp.objectProperty (PropKey.identKey "b") (Node.numericLit 1)]),
          some (Node.templateLit ["t ", ""]),
          some Node.nullLit,
          some (Node.arrayExpr [some (Node.stringLit "c"), some (Node.stringLit "d")]),
          some (Node.ident "undefined"),
          some (Node.unaryExpr "void" (Node.numericLit 0)) ]) =
      JsValue.arr
        [ JsValue.str "a",
          JsValue.obj [("b", JsValue.num 1)],
          JsValue.str "t \x7b\x7b\x7d\x7d",
          JsValue.null,
          JsValue.arr [JsValue.str "c", JsValue.str "d"],
          JsValue.null,
          JsValue.null ] ∧
    processNodeValue (Node.arrayExpr [none]) = JsValue.arr [JsValue.null] := by
  have hi : String.intercalate "\x7b\x7b\x7d\x7d" ["t ", ""] = "t \x7b\x7b\x7d\x7d" := by
    decide
  constructor
  · simp [processNodeValue, processElems, processProps, processPropertyInto, keyName,
      setProp, hi]
  · simp [processNodeValue, processElems]

/-- C7. For mappings existing and incoming, every key absent from the
incoming mapping keeps its looked-up value from the existing mapping in
the merge result; the embedded mergeDeep is a pure function on values
(the JavaScript original writes only into the fresh
`Object.assign({}, target)` copy, never into existing's nested
structures). -/
theorem mergeDeep_preserves_untouched_keys
    (tf sf : List (String × JsValue)) (k : String)
    (hin : hasProp tf k = true) (hout : hasProp sf k = false) :
    mergeDeep (JsValue.obj tf) (JsValue.obj sf) = JsValue.obj (mergeFields tf tf sf) ∧
    lookupProp (mergeFields tf tf sf) k = lookupProp tf k := by
  exact ⟨by rw [mergeDeep], mergeFields_lookup_of_notProp tf sf tf hout⟩

/-- Witness for C7 with existing `{a: "x"}`, incoming `{b: 1}`, key
`a`. -/
theorem mergeDeep_preserves_untouched_keys_witness :
    mergeDeep (JsValue.obj [("a", JsValue.str "x")]) (JsValue.obj [("b", JsValue.num 1)]) =
      JsValue.obj (mergeFields [("a", JsValue.str "x")] [("a", JsValue.str "x")]
        [("b", JsValue.num 1)]) ∧
    lookupProp (mergeFields [("a", JsValue.str "x")] [("a", JsValue.str "x")]
        [("b", JsValue.num 1)]) "a" =
      lookupProp [("a", JsValue.str "x")] "a" :=
  mergeDeep_preserves_untouched_keys [("a", JsValue.str "x")] [("b", JsValue.num 1)] "a"
    (by simp [hasProp]) (by simp [hasProp])

/-- C8. When every default export of the module (after resolving a
plain identifier through its local declarator binding) normalizes to
something other than a mapping — a list or a scalar — the export
extraction path produces no extracted data. -/
theorem exportPath_rejects_nonmapping_default (prog : List Stmt)
    (h : ∀ d, Stmt.exportDefaultExpr d ∈ prog →
      isMappingValue (processNodeValue (resolveDefault prog d)) = false) :
    exportPath prog prog = [] :=
  exportPath_empty_aux prog prog h

/-- Witness for C8: a module whose only default export is the bare
array literal `["a"]` yields an empty export extraction. -/
theorem exportPath_rejects_nonmapping_default_witness :
    exportPath [Stmt.exportDefaultExpr (Node.arrayExpr [some (Node.stringLit "a")])]
      [Stmt.exportDefaultExpr (Node.arrayExpr [some (Node.stringLit "a")])] = [] :=
  exportPath_rejects_nonmapping_default
    [Stmt.exportDefaultExpr (Node.arrayExpr [some (Node.stringLit "a")])]
    (by
      intro d hd
      simp only [List.mem_singleton, Stmt.exportDefaultExpr.injEq] at hd
      subst hd
      simp [resolveDefault, processNodeValue, processElems, isMappingValue])

/-- C9. The value normalizer is total and deterministic: every node
normalizes to a JSON-representable value (its totality and freedom from
faults are intrinsic to it being a function into JsValue, and no
promise or other non-JSON artefact ever appears in its output), the
unhandled node kind normalizes to null, and identical input nodes give
identical outputs. -/
theorem processNodeValue_total_deterministic (n : Node) :
    (processNodeValue n).isJson = true ∧
    processNodeValue Node.other = JsValue.null ∧
    ∀ m : Node, m = n → processNodeValue m = processNodeValue n := by
  exact ⟨processNodeValue_isJson n, by rw [processNodeValue], fun m hm => by rw [hm]⟩

/-- Witness for C9 at the unhandled node kind itself. -/
theorem processNodeValue_total_deterministic_witness :
    (processNodeValue Node.other).isJson = true ∧
    processNodeValue Node.other = processNodeValue Node.other :=
  ⟨(processNodeValue_total_deterministic Node.other).1,
   (processNodeValue_total_deterministic Node.other).2.2 Node.other rfl⟩

/-- C10. When the existing side of the merge is not a mapping — null, a
scalar, or a list, as happens when the on-disk catalog's JSON root is
not an object — mergeDeep returns exactly the incoming value: the
isObject guard fails and `output = source` replaces everything. -/
theorem mergeDeep_nonmapping_existing_replaced (t s : JsValue)
    (h : notAMapping t = true) : mergeDeep t s = s := by
  cases t with
  | obj tf => simp [notAMapping] at h
  | promise v => simp [notAMapping] at h
  | str a => cases s <;> rw [mergeDeep] <;> simp
  | num a => cases s <;> rw [mergeDeep] <;> simp
  | bool a => cases s <;> rw [mergeDeep] <;> simp
  | null => cases s <;> rw [mergeDeep] <;> simp
  | arr a => cases s <;> rw [mergeDeep] <;> simp

/-- Witness for C10: merging the null catalog root with an incoming
mapping returns the incoming mapping. -/
theorem mergeDeep_nonmapping_existing_replaced_witness :
    notAMapping JsValue.null = true ∧
    mergeDeep JsValue.null (JsValue.obj [("k", JsValue.str "v")]) =
      JsValue.obj [("k", JsValue.str "v")] :=
  ⟨rfl, mergeDeep_nonmapping_existing_replaced JsValue.null
    (JsValue.obj [("k", JsValue.str "v")]) rfl⟩

end I18n
